import Mathlib

/-!
Verification of the cedar-go core against its specification.

The development shallowly embeds the Go sources:
* the Cedar value model and set semantics (spec section 3; the `types`
  package sources are not present, so these are modelled from the spec),
* the experimental recursive-descent parser `x/exp/ast/parser.go`
  (embedded function by function),
* the authorizer `PolicySet.IsAuthorized` from the `cedar` package.
-/

namespace CedarGo

/-- `types.EntityUID`: a pair of a type path and an id string. -/
structure EntityUID where
  ty : String
  id : String
deriving DecidableEq

/-- Modelled from the spec: the Cedar `Value` tagged variant (spec section 3).
The `types` package sources are not under `src/`; the variants follow the
spec list.  `ipaddr` carries a flag for IPv6, the address groups and the
prefix length; `decim` carries the fixed-point value in units of `10^-4`. -/
inductive Value where
  | boolean : Bool → Value
  | long : Int → Value
  | str : String → Value
  | set : List Value → Value
  | record : List (String × Value) → Value
  | entity : EntityUID → Value
  | ipaddr : Bool → List Nat → Nat → Value
  | decim : Int → Value

mutual

/-- Modelled from the spec: structural equality of Cedar values, with set
equality order- and multiplicity-insensitive and record equality a mapping
comparison (spec section 3 invariants). -/
def valueEq : Value → Value → Bool
  | .boolean a, .boolean b => a == b
  | .long a, .long b => a == b
  | .str a, .str b => a == b
  | .set xs, .set ys => subEq xs ys && subEq ys xs
  | .record xs, .record ys => recSub xs ys && recSub ys xs
  | .entity a, .entity b => a == b
  | .ipaddr a b c, .ipaddr d e f => a == d && b == e && c == f
  | .decim a, .decim b => a == b
  | _, _ => false
termination_by a b => sizeOf a + sizeOf b
decreasing_by all_goals (simp_wf; omega)

/-- `memEq v l` holds when some member of `l` is structurally equal to `v`. -/
def memEq : Value → List Value → Bool
  | _, [] => false
  | v, y :: ys => valueEq v y || memEq v ys
termination_by v l => sizeOf v + sizeOf l
decreasing_by all_goals (simp_wf <;> omega)

/-- `subEq l r` holds when every member of `l` has a structural equal in `r`. -/
def subEq : List Value → List Value → Bool
  | [], _ => true
  | x :: xs, ys => memEq x ys && subEq xs ys
termination_by l r => sizeOf l + sizeOf r
decreasing_by all_goals (simp_wf <;> omega)

/-- `recHas k v l` holds when `l` maps key `k` to a value equal to `v`. -/
def recHas : String → Value → List (String × Value) → Bool
  | _, _, [] => false
  | k, v, (k2, v2) :: ys => (k == k2 && valueEq v v2) || recHas k v ys
termination_by _ v l => sizeOf v + sizeOf l
decreasing_by all_goals (simp_wf <;> omega)

/-- `recSub l r`: every binding of `l` appears (up to `valueEq`) in `r`. -/
def recSub : List (String × Value) → List (String × Value) → Bool
  | [], _ => true
  | (k, v) :: xs, ys => recHas k v ys && recSub xs ys
termination_by l r => sizeOf l + sizeOf r
decreasing_by all_goals (simp_wf <;> omega)

end

/-- Modelled from the spec: `NewSet` absorbs duplicates on construction,
keeping the first occurrence of each distinct element in input order
(`types/set_test.go` pins the length and iteration behaviour). -/
def newSetList : List Value → List Value
  | [] => []
  | v :: vs => v :: newSetList (vs.filter (fun w => !valueEq w v))
termination_by l => l.length
decreasing_by simp_wf; have := List.length_filter_le (fun w => !valueEq w v) vs; omega

/-- Modelled from the spec: `types.NewSet`. -/
def NewSet (vs : List Value) : Value := .set (newSetList vs)

/-- `Set.Len` on a set value. -/
def setLen : Value → Nat
  | .set l => l.length
  | _ => 0

/-! ### A small heap model for the defensive-copy property

Go slices of `Value` are modelled as arrays in a heap: an array id maps to
its contents.  `types.NewSet` (code not under `src/`) is modelled from the
spec: it reads the source array once, absorbs duplicates, and stores the
copy in a freshly allocated array, so the constructed set never aliases the
caller's slice. -/

/-- A heap of `Value` arrays, indexed by allocation order. -/
abbrev Mem := List (List Value)

/-- Read the contents of array `a`. -/
def readArr (m : Mem) (a : Nat) : List Value := m.getD a []

/-- Overwrite element `i` of array `a`, as `slice[i] = v` does in Go. -/
def writeElem (m : Mem) (a i : Nat) (v : Value) : Mem :=
  m.set a ((m.getD a []).set i v)

/-- A constructed set: a handle to the array holding its elements. -/
structure SetH where
  arr : Nat

/-- Modelled from the spec: `NewSet` reads the source slice `src`, absorbs
duplicates, and copies the result into a fresh array. -/
def newSetH (m : Mem) (src : Nat) : Mem × SetH :=
  (m ++ [newSetList (readArr m src)], SetH.mk m.length)

/-- The elements a set presents through `Iterate`/`Slice`. -/
def setHElems (m : Mem) (s : SetH) : List Value := readArr m s.arr

/-- `Set.Len` through the heap. -/
def setHLen (m : Mem) (s : SetH) : Nat := (setHElems m s).length

/-! ### The authorizer (`cedar` package, `IsAuthorized`)

Embedded from the source.  The compiled evaluator `eval.Compile`/`Eval` is
not under `src/`, so a policy carries its evaluation function abstractly;
`IsAuthorized` itself is transcribed from the loop in the source. -/

/-- `cedar.Position`. -/
structure Position where
  filename : String
  offset : Nat
  line : Nat
  column : Nat
deriving DecidableEq

/-- `cedar.Effect`: permit or forbid. -/
inductive Effect where
  | permit
  | forbid
deriving DecidableEq

/-- Modelled from the spec: an entity record, attributes plus direct
parents (spec section 3; `internal/entities` is not under `src/`). -/
structure Entity where
  attrs : List (String × Value)
  parents : List EntityUID

/-- `entities.Entities`: the store, a mapping from UID to entity. -/
abbrev Entities := List (EntityUID × Entity)

/-- `cedar.Request`. -/
structure Request where
  principal : EntityUID
  action : EntityUID
  resource : EntityUID
  context : List (String × Value)

/-- `eval.Context`: what `IsAuthorized` hands to each policy evaluation. -/
structure EvalContext where
  entities : Entities
  principal : EntityUID
  action : EntityUID
  resource : EntityUID
  context : List (String × Value)

/-- `cedar.Policy` as `IsAuthorized` consumes it: position, effect and the
compiled evaler.  `eval.Compile` is not under `src/`, so the evaler is an
abstract function from context to value-or-error. -/
structure CPolicy where
  position : Position
  effect : Effect
  eval : EvalContext → Except String Value

/-- Modelled from the spec: `types.ValueToBool` coerces a `Boolean` and
rejects every other variant with a type error. -/
def ValueToBool : Value → Except String Bool
  | .boolean b => .ok b
  | _ => .error ("type error: expected bool")

/-- `cedar.Reason`: policy index and position. -/
structure Reason where
  policy : Nat
  position : Position
deriving DecidableEq

/-- `cedar.Error`: policy index, position, message. -/
structure AuthzError where
  policy : Nat
  position : Position
  message : String
deriving DecidableEq

/-- `cedar.Diagnostic`. -/
structure Diagnostic where
  reasons : List Reason
  errors : List AuthzError
deriving DecidableEq

/-- The mutable state of the `IsAuthorized` loop. -/
structure AuthzAcc where
  gotForbid : Bool
  forbidReasons : List Reason
  gotPermit : Bool
  permitReasons : List Reason
  errors : List AuthzError

/-- One iteration of the `IsAuthorized` loop, policy index `n`. -/
def authzStep (c : EvalContext) (acc : AuthzAcc) (n : Nat) (po : CPolicy) : AuthzAcc :=
  match po.eval c with
  | .error e =>
    AuthzAcc.mk acc.gotForbid acc.forbidReasons acc.gotPermit acc.permitReasons
      (acc.errors ++ [AuthzError.mk n po.position e])
  | .ok v =>
    match ValueToBool v with
    | .error e =>
      AuthzAcc.mk acc.gotForbid acc.forbidReasons acc.gotPermit acc.permitReasons
        (acc.errors ++ [AuthzError.mk n po.position e])
    | .ok vb =>
      if !vb then acc
      else
        match po.effect with
        | .forbid =>
          AuthzAcc.mk true (acc.forbidReasons ++ [Reason.mk n po.position])
            acc.gotPermit acc.permitReasons acc.errors
        | .permit =>
          AuthzAcc.mk acc.gotForbid acc.forbidReasons
            true (acc.permitReasons ++ [Reason.mk n po.position]) acc.errors

/-- The `for n, po := range p` loop of `IsAuthorized`. -/
def runPolicies (c : EvalContext) : Nat → List CPolicy → AuthzAcc → AuthzAcc
  | _, [], acc => acc
  | n, po :: rest, acc => runPolicies c (n + 1) rest (authzStep c acc n po)

/-- The evaluation context `IsAuthorized` builds from store and request. -/
def mkEvalContext (entityMap : Entities) (req : Request) : EvalContext :=
  EvalContext.mk entityMap req.principal req.action req.resource req.context

/-- `PolicySet.IsAuthorized`, embedded from the source: run every policy,
collect errors and reasons, decide `gotPermit && !gotForbid`.  The returned
`Bool` is the `Decision` (`true` is `Allow`). -/
def IsAuthorized (p : List CPolicy) (entityMap : Entities) (req : Request) :
    Bool × Diagnostic :=
  let c := mkEvalContext entityMap req
  let acc := runPolicies c 0 p (AuthzAcc.mk false [] false [] [])
  let reasons :=
    if acc.gotForbid then acc.forbidReasons
    else if acc.gotPermit then acc.permitReasons
    else []
  (acc.gotPermit && !acc.gotForbid, Diagnostic.mk reasons acc.errors)

/-! ### Claim-side recharacterisations of the authorizer

These definitions follow the words of the spec's decision rule; the claim
theorems compare `IsAuthorized` against them. -/

/-- A policy's evaluation pipeline: evaluate, then coerce to boolean.  An
error from either step is the policy's evaluation error. -/
def policyOutcome (c : EvalContext) (po : CPolicy) : Except String Bool :=
  match po.eval c with
  | .error e => .error e
  | .ok v => ValueToBool v

/-- The policy fired: it evaluated to `true`. -/
def firedB (c : EvalContext) (po : CPolicy) : Bool :=
  match policyOutcome c po with
  | .ok true => true
  | _ => false

/-- Some policy of the given effect fired. -/
def anyFired (c : EvalContext) (eff : Effect) (ps : List CPolicy) : Bool :=
  ps.any (fun po => po.effect == eff && firedB c po)

/-- The (policy-index, position) pairs of fired policies of one effect,
indices counted from `n`. -/
def reasonsOfFrom (c : EvalContext) (eff : Effect) : Nat → List CPolicy → List Reason
  | _, [] => []
  | n, po :: rest =>
    (if po.effect == eff && firedB c po then [Reason.mk n po.position] else []) ++
      reasonsOfFrom c eff (n + 1) rest

/-- The error entries of the erroring policies, in policy order, indices
counted from `n`. -/
def errorsOfFrom (c : EvalContext) : Nat → List CPolicy → List AuthzError
  | _, [] => []
  | n, po :: rest =>
    (match policyOutcome c po with
     | .error e => [AuthzError.mk n po.position e]
     | .ok _ => []) ++
      errorsOfFrom c (n + 1) rest

/-! ### Tokens and the lexer

`x/exp/ast/parser.go` consumes a token stream; the lexer itself is not
under `src/`, so it is modelled from spec section 4.1: identifiers,
integer literals (no leading minus), quoted strings whose raw body is kept
for `stringValue` to interpret, and the listed punctuation, with an EOF
token closing the stream. -/

/-- Token kinds. -/
inductive TokenTy where
  | eof
  | tIdent
  | tInt
  | tStr
  | op
deriving DecidableEq

/-- A token: kind and text.  For string tokens the text is the raw body
between the quotes, escapes preserved (spec: the lexer keeps both
alphabets and lets consumers interpret). -/
structure Token where
  ty : TokenTy
  text : String
deriving DecidableEq

def Token.isIdent (t : Token) : Bool := t.ty == .tIdent

def Token.isInt (t : Token) : Bool := t.ty == .tInt

def Token.isString (t : Token) : Bool := t.ty == .tStr

/-- The double-quote character. -/
def qMark : Char := Char.ofNat 34

/-- The backslash character. -/
def bSlash : Char := Char.ofNat 92

/-- The apostrophe character. -/
def apos : Char := Char.ofNat 39

/-- Opening and closing brace characters. -/
def lBrace : Char := Char.ofNat 123

def rBrace : Char := Char.ofNat 125

def hexDigitVal (c : Char) : Option Nat :=
  if c.isDigit then some (c.toNat - 48)
  else if 97 ≤ c.toNat && c.toNat ≤ 102 then some (c.toNat - 87)
  else if 65 ≤ c.toNat && c.toNat ≤ 70 then some (c.toNat - 55)
  else none

/-- One step of escape interpretation; `rec` continues on the rest.  The
step/fuel split keeps the recursive definitions' bodies small, which is
what lets concrete runs evaluate inside the kernel. -/
def unescStep (rec : List Char → Except String (List Char)) :
    List Char → Except String (List Char)
  | [] => .ok []
  | c :: cs =>
    if c == bSlash then
      match cs with
      | [] => .error ("bad escape")
      | d :: ds =>
        if d == 'n' then (rec ds).map (fun r => '\n' :: r)
        else if d == 't' then (rec ds).map (fun r => '\t' :: r)
        else if d == 'r' then (rec ds).map (fun r => '\r' :: r)
        else if d == qMark then (rec ds).map (fun r => qMark :: r)
        else if d == apos then (rec ds).map (fun r => apos :: r)
        else if d == bSlash then (rec ds).map (fun r => bSlash :: r)
        else if d == '0' then (rec ds).map (fun r => Char.ofNat 0 :: r)
        else if d == '*' then (rec ds).map (fun r => '*' :: r)
        else if d == 'u' then
          match ds with
          | e :: es =>
            if e == lBrace then
              let hex := es.takeWhile (fun h => (hexDigitVal h).isSome)
              let rest := es.dropWhile (fun h => (hexDigitVal h).isSome)
              match rest with
              | r :: rs =>
                if r == rBrace && hex.length > 0 then
                  let n := hex.foldl (fun a h => a * 16 + (hexDigitVal h).getD 0) 0
                  (rec rs).map (fun r2 => Char.ofNat n :: r2)
                else .error ("bad unicode escape")
              | [] => .error ("bad unicode escape")
            else .error ("bad unicode escape")
          | [] => .error ("bad unicode escape")
        else .error ("bad escape")
    else (rec cs).map (fun r => c :: r)

/-- Interpret the escapes of spec section 4.1 in a raw string body. -/
def unescAux (fuel : Nat) : List Char → Except String (List Char) :=
  @Nat.rec (fun _ => List Char → Except String (List Char))
    (fun _ => .error ("escape fuel")) (fun _ ih => unescStep ih) fuel

/-- `Token.stringValue`: interpret the raw body of a string token. -/
def stringValue (t : Token) : Except String String :=
  (unescAux (t.text.length + 1) t.text.toList).map (fun cs => String.mk cs)

/-- The largest value of Go's `int64`. -/
def maxInt64 : Nat := 9223372036854775807

/-- `Token.intValue`: decimal digits to a 64-bit integer, as
`strconv.ParseInt` bounds it. -/
def intValue (t : Token) : Except String Int :=
  let n := t.text.toList.foldl (fun a c => a * 10 + (c.toNat - 48)) 0
  if n ≤ maxInt64 then .ok (Int.ofNat n) else .error ("int out of range")

def isIdentStart (c : Char) : Bool := c.isAlpha || c == '_'

def isIdentChar (c : Char) : Bool := c.isAlpha || c.isDigit || c == '_'

def isWSChar (c : Char) : Bool := c == ' ' || c == '\t' || c == '\n' || c == '\r'

/-- The two-character punctuation tokens of spec section 4.1. -/
def isTwoOp (c d : Char) : Bool :=
  (c == '=' && d == '=') || (c == '!' && d == '=') || (c == '<' && d == '=') ||
  (c == '>' && d == '=') || (c == '&' && d == '&') || (c == '|' && d == '|') ||
  (c == ':' && d == ':')

/-- The one-character punctuation tokens of spec section 4.1. -/
def isSingleOp (c : Char) : Bool :=
  c == '@' || c == '(' || c == ')' || c == lBrace || c == rBrace || c == '[' ||
  c == ']' || c == ',' || c == ';' || c == ':' || c == '.' || c == '<' ||
  c == '>' || c == '!' || c == '+' || c == '-' || c == '*' || c == '=' || c == '?'

/-- One step of string-literal scanning; `rec` continues with the rest and
the accumulated raw body. -/
def lexStrStep (rec : List Char → List Char → Except String (List Char × List Char)) :
    List Char → List Char → Except String (List Char × List Char)
  | [], _ => .error ("literal not terminated")
  | d :: ds, acc =>
    if d == qMark then .ok (acc.reverse, ds)
    else if d == bSlash then
      match ds with
      | [] => .error ("literal not terminated")
      | e :: es => rec es (e :: d :: acc)
    else rec ds (d :: acc)

/-- Scan a string literal body up to the closing quote, keeping the raw
text (escape pairs intact). -/
def lexStrAux (fuel : Nat) : List Char → List Char → Except String (List Char × List Char) :=
  @Nat.rec (fun _ => List Char → List Char → Except String (List Char × List Char))
    (fun _ _ => .error ("lex fuel")) (fun _ ih => lexStrStep ih) fuel

/-- One lexer step; `rec` lexes the rest of the input. -/
def lexStep (rec : List Char → Except String (List Token)) :
    List Char → Except String (List Token)
  | [] => .ok [Token.mk .eof ""]
  | c :: cs =>
    if isWSChar c then rec cs
    else if isIdentStart c then
      let w := (c :: cs).takeWhile isIdentChar
      let rest := (c :: cs).dropWhile isIdentChar
      (rec rest).map (fun ts => Token.mk .tIdent (String.mk w) :: ts)
    else if c.isDigit then
      let w := (c :: cs).takeWhile Char.isDigit
      let rest := (c :: cs).dropWhile Char.isDigit
      (rec rest).map (fun ts => Token.mk .tInt (String.mk w) :: ts)
    else if c == qMark then
      match lexStrAux (cs.length + 1) cs [] with
      | .error e => .error e
      | .ok (raw, rest) =>
        (rec rest).map (fun ts => Token.mk .tStr (String.mk raw) :: ts)
    else
      match cs with
      | d :: ds =>
        if isTwoOp c d then
          (rec ds).map (fun ts => Token.mk .op (String.mk [c, d]) :: ts)
        else if isSingleOp c then
          (rec cs).map (fun ts => Token.mk .op (String.mk [c]) :: ts)
        else .error ("invalid character")
      | [] =>
        if isSingleOp c then
          (rec cs).map (fun ts => Token.mk .op (String.mk [c]) :: ts)
        else .error ("invalid character")

/-- Modelled from the spec: the lexer, one forward pass producing all
tokens, closed by an EOF token. -/
def lexAux (fuel : Nat) : List Char → Except String (List Token) :=
  @Nat.rec (fun _ => List Char → Except String (List Token))
    (fun _ => .error ("lex fuel")) (fun _ ih => lexStep ih) fuel

/-- Lex a whole document. -/
def lexCedar (s : String) : Except String (List Token) :=
  lexAux (s.length + 1) s.toList

/-! ### Models of the Go standard library calls made by the parser

`entityOrExtFun` calls `netip.ParsePrefix` and `strconv.ParseFloat`.  They
are modelled here to the fidelity the parser observes: `netip.ParsePrefix`
requires a `/` (a bare address is an error), then an IPv4 dotted quad or
an IPv6 group form, then a decimal bit count within range; `ParseFloat`
acceptance is the decimal float grammar (IPv6 zones, embedded IPv4 tails
and hexadecimal floats are not modelled; no claim touches them). -/

/-- Split a character list on every occurrence of `c`. -/
def splitOnChar (c : Char) : List Char → List (List Char)
  | [] => [[]]
  | d :: ds =>
    let r := splitOnChar c ds
    if d == c then [] :: r
    else
      match r with
      | x :: xs => (d :: x) :: xs
      | [] => [[d]]

/-- An IP prefix as `netip.Prefix`: family, address groups, bit count. -/
structure IpPfx where
  v6 : Bool
  groups : List Nat
  bits : Nat
deriving DecidableEq

/-- One IPv4 octet: 1–3 digits, no leading zero, value at most 255. -/
def decOctet (cs : List Char) : Option Nat :=
  if cs.length == 0 || cs.length > 3 then none
  else if !(cs.all Char.isDigit) then none
  else if cs.length > 1 && cs.headD '0' == '0' then none
  else
    let n := cs.foldl (fun a c => a * 10 + (c.toNat - 48)) 0
    if n ≤ 255 then some n else none

/-- IPv4 dotted quad. -/
def parseV4 (cs : List Char) : Option (List Nat) :=
  let parts := splitOnChar '.' cs
  if parts.length == 4 then
    let octs := parts.filterMap decOctet
    if octs.length == 4 then some octs else none
  else none

/-- One IPv6 group: 1–4 hex digits. -/
def hexGroup (cs : List Char) : Option Nat :=
  if cs.length == 0 || cs.length > 4 then none
  else if !(cs.all (fun c => (hexDigitVal c).isSome)) then none
  else some (cs.foldl (fun a c => a * 16 + (hexDigitVal c).getD 0) 0)

/-- Split at the first occurrence of a double colon, if any. -/
def splitDoubleColon : List Char → Option (List Char × List Char)
  | [] => none
  | [_] => none
  | c :: d :: ds =>
    if c == ':' && d == ':' then some ([], ds)
    else (splitDoubleColon (d :: ds)).map (fun p => (c :: p.1, p.2))

/-- IPv6 groups, with at most one `::` compression. -/
def parseV6 (cs : List Char) : Option (List Nat) :=
  match splitDoubleColon cs with
  | none =>
    let parts := splitOnChar ':' cs
    if parts.length == 8 then
      let gs := parts.filterMap hexGroup
      if gs.length == 8 then some gs else none
    else none
  | some (l, r) =>
    let lparts := if l.isEmpty then [] else splitOnChar ':' l
    let rparts := if r.isEmpty then [] else splitOnChar ':' r
    let lgs := lparts.filterMap hexGroup
    let rgs := rparts.filterMap hexGroup
    if lgs.length == lparts.length && rgs.length == rparts.length &&
        lgs.length + rgs.length ≤ 7 &&
        (splitDoubleColon r).isNone then
      some (lgs ++ List.replicate (8 - lgs.length - rgs.length) 0 ++ rgs)
    else none

/-- `netip.ParseAddr` to the fidelity used here. -/
def parseAddrNet (cs : List Char) : Except String (Bool × List Nat) :=
  if cs.any (fun c => c == ':') then
    match parseV6 cs with
    | some gs => .ok (true, gs)
    | none => .error ("netip: bad ipv6 address")
  else
    match parseV4 cs with
    | some os => .ok (false, os)
    | none => .error ("netip: bad ipv4 address")

/-- Split at the last slash, as `strings.LastIndexByte` does. -/
def lastSlashSplit (cs : List Char) : Option (List Char × List Char) :=
  match splitOnChar '/' cs with
  | [] => none
  | [_] => none
  | parts =>
    some (List.intercalate ['/'] parts.dropLast, parts.getLastD [])

/-- The decimal bit count after the slash: digits, no leading zero, within
the family's range. -/
def parseBits (cs : List Char) (maxBits : Nat) : Option Nat :=
  if cs.length == 0 || cs.length > 3 then none
  else if !(cs.all Char.isDigit) then none
  else if cs.length > 1 && cs.headD '0' == '0' then none
  else
    let n := cs.foldl (fun a c => a * 10 + (c.toNat - 48)) 0
    if n ≤ maxBits then some n else none

/-- `netip.ParsePrefix`: requires a slash — a bare address is an error,
it is not promoted to a full-length prefix. -/
def parsePfxNet (s : String) : Except String IpPfx :=
  match lastSlashSplit s.toList with
  | none => .error ("netip: no slash in ip literal")
  | some (a, b) =>
    match parseAddrNet a with
    | .error e => .error e
    | .ok (v6, gs) =>
      match parseBits b (if v6 then 128 else 32) with
      | some n => .ok (IpPfx.mk v6 gs n)
      | none => .error ("netip: bad prefix bits")

/-- `strconv.ParseFloat` acceptance on the decimal grammar: optional sign,
digits with an optional fractional part, optional exponent, or an
infinity/NaN word.  There is no fractional-digit limit. -/
def parseFloatAccepts (s : String) : Bool :=
  let cs := s.toList.map Char.toLower
  let cs := match cs with
    | c :: rest => if c == '+' || c == '-' then rest else cs
    | [] => cs
  if cs == ['i', 'n', 'f'] || cs == ['i', 'n', 'f', 'i', 'n', 'i', 't', 'y'] ||
      cs == ['n', 'a', 'n'] then true
  else
    let ip := cs.takeWhile Char.isDigit
    let rest := cs.dropWhile Char.isDigit
    let (fp, rest2) :=
      match rest with
      | c :: r => if c == '.' then (r.takeWhile Char.isDigit, r.dropWhile Char.isDigit) else ([], rest)
      | [] => ([], rest)
    if ip.length + fp.length == 0 then false
    else
      match rest2 with
      | [] => true
      | c :: r =>
        if c == 'e' then
          let r2 := match r with
            | d :: r2 => if d == '+' || d == '-' then r2 else r
            | [] => r
          r2.length > 0 && r2.all Char.isDigit
        else false

/-! ### The experimental parser `x/exp/ast/parser.go`

Embedded function by function from the source.  The `ast` node builders
(`lhs.Or(rhs)`, `If(...)`, `Entity(...)`, ...) are plain constructors of
the node type; the Go parser struct is `PState`; recursion through the
expression grammar carries a fuel argument (the source's recursion is
bounded by the input, fuel is only Lean's termination device).  Parse
errors carry the `errorf` format body; the source additionally prepends
the position and current token text, which no claim inspects. -/

/-- The `ast.Node` expression type, one constructor per builder the parser
calls.  A record literal is kept as the insertion-ordered entry list; the
decimal literal keeps the accepted text (the source converts it through
`float64`, whose value no claim inspects). -/
inductive XNode where
  | longLit (i : Int)
  | strLit (s : String)
  | boolLit (b : Bool)
  | principalVar
  | actionVar
  | resourceVar
  | contextVar
  | entityLit (e : EntityUID)
  | ipLit (pfx : IpPfx)
  | decimalLit (s : String)
  | iteN (c t e : XNode)
  | orN (a b : XNode)
  | andN (a b : XNode)
  | ltN (a b : XNode)
  | leN (a b : XNode)
  | gtN (a b : XNode)
  | geN (a b : XNode)
  | neN (a b : XNode)
  | eqN (a b : XNode)
  | inN (a b : XNode)
  | hasN (a : XNode) (attr : String)
  | isN (a : XNode) (path : String)
  | isInN (a : XNode) (path : String) (b : XNode)
  | addN (a b : XNode)
  | subN (a b : XNode)
  | mulN (a b : XNode)
  | notN (a : XNode)
  | negN (a : XNode)
  | accessN (a : XNode) (attr : String)
  | containsN (a b : XNode)
  | containsAllN (a b : XNode)
  | containsAnyN (a b : XNode)
  | setN (elems : List XNode)
  | recordN (entries : List (String × XNode))
  | extMethodN (recv : XNode) (name : String) (args : List XNode)

/-- Principal/resource scope, as the builder methods set it. -/
inductive PScope where
  | scopeAll
  | eqE (e : EntityUID)
  | isT (p : String)
  | isInT (p : String) (e : EntityUID)
  | inE (e : EntityUID)

/-- Action scope. -/
inductive AScope where
  | scopeAll
  | eqE (e : EntityUID)
  | inE (e : EntityUID)
  | inSet (es : List EntityUID)

/-- A condition clause kind. -/
inductive CondKind where
  | cwhen
  | cunless

/-- The parsed policy of the experimental `ast` package. -/
structure XPolicy where
  effect : Effect
  annos : List (String × String)
  principalScope : PScope
  actionScope : AScope
  resourceScope : PScope
  conds : List (CondKind × XNode)

def XPolicy.withPrincipal (p : XPolicy) (s : PScope) : XPolicy :=
  XPolicy.mk p.effect p.annos s p.actionScope p.resourceScope p.conds

def XPolicy.withAction (p : XPolicy) (s : AScope) : XPolicy :=
  XPolicy.mk p.effect p.annos p.principalScope s p.resourceScope p.conds

def XPolicy.withResource (p : XPolicy) (s : PScope) : XPolicy :=
  XPolicy.mk p.effect p.annos p.principalScope p.actionScope s p.conds

def XPolicy.addCond (p : XPolicy) (k : CondKind) (e : XNode) : XPolicy :=
  XPolicy.mk p.effect p.annos p.principalScope p.actionScope p.resourceScope
    (p.conds ++ [(k, e)])

/-- The parser struct: token slice and position. -/
structure PState where
  tokens : List Token
  pos : Nat

/-- The token `peek` returns; out of range never happens when the stream
is nonempty, the default only totalises the function. -/
def defaultToken : Token := Token.mk .eof ""

/-- `parser.peek`. -/
def peekT (p : PState) : Token := p.tokens.getD p.pos defaultToken

/-- `parser.advance`: return the current token; move forward only while
not yet at the last token. -/
def advanceT (p : PState) : Token × PState :=
  if p.pos < p.tokens.length - 1 then (peekT p, PState.mk p.tokens (p.pos + 1))
  else (peekT p, p)

/-- The parser monad: state threading plus parse errors. -/
abbrev PM (α : Type) := StateT PState (Except String) α

def peekM : PM Token := fun p => .ok (peekT p, p)

def advanceM : PM Token := fun p => .ok (advanceT p)

def perr {α : Type} (msg : String) : PM α := fun _ => .error msg

/-- `parser.exact`. -/
def exactM (tok : String) : PM Unit := do
  let t ← advanceM
  if t.text == tok then pure () else perr ("exact got " ++ t.text ++ " want " ++ tok)

/-- `parser.annotation` (one `@name("value")`, after the `@`). -/
def annoM : PM (String × String) := do
  let t ← advanceM
  if !t.isIdent then perr ("expected ident")
  else do
    exactM "("
    let t2 ← advanceM
    if !t2.isString then perr ("expected string")
    else
      match stringValue t2 with
      | .error e => perr e
      | .ok v => do
        exactM ")"
        pure (t.text, v)

/-- One iteration of the `parser.annotations` loop. -/
def annosStep (rec : List (String × String) → PM (List (String × String)))
    (acc : List (String × String)) : PM (List (String × String)) := do
  let t ← peekM
  if t.text == "@" then do
    let _ ← advanceM
    let a ← annoM
    rec (acc ++ [a])
  else pure acc

/-- `parser.annotations`: the `@`-loop. -/
def annosM (fuel : Nat) : List (String × String) → PM (List (String × String)) :=
  @Nat.rec (fun _ => List (String × String) → PM (List (String × String)))
    (fun _ => perr ("fuel")) (fun _ ih => annosStep ih) fuel

/-- `parser.effect`. -/
def effectM (annos : List (String × String)) : PM XPolicy := do
  let next ← advanceM
  if next.text == "permit" then
    pure (XPolicy.mk .permit annos .scopeAll .scopeAll .scopeAll [])
  else if next.text == "forbid" then
    pure (XPolicy.mk .forbid annos .scopeAll .scopeAll .scopeAll [])
  else perr ("unexpected effect: " ++ next.text)

/-- One iteration of the `parser.entityFirstPathPreread` loop. -/
def entityTailStep (rec : String → PM EntityUID) (firstPath : String) :
    PM EntityUID := do
  exactM "::"
  let t ← advanceM
  if t.isIdent then rec (firstPath ++ "::" ++ t.text)
  else if t.isString then
    match stringValue t with
    | .error e => perr e
    | .ok i => pure (EntityUID.mk firstPath i)
  else perr ("unexpected token")

/-- `parser.entityFirstPathPreread`: the `::`-separated tail of a UID. -/
def entityTailM (fuel : Nat) : String → PM EntityUID :=
  @Nat.rec (fun _ => String → PM EntityUID)
    (fun _ => perr ("fuel")) (fun _ ih => entityTailStep ih) fuel

/-- `parser.entity`. -/
def entityM (f : Nat) : PM EntityUID := do
  let t ← advanceM
  if !t.isIdent then perr ("expected ident")
  else entityTailM f t.text

/-- One iteration of the `::` loop of `parser.path`. -/
def pathLoopStep (rec : String → PM String) (acc : String) : PM String := do
  let t ← peekM
  if t.text == "::" then do
    let _ ← advanceM
    let t2 ← advanceM
    if t2.isIdent then rec (acc ++ "::" ++ t2.text)
    else perr ("unexpected token")
  else pure acc

/-- The `::` loop of `parser.path`. -/
def pathLoopM (fuel : Nat) : String → PM String :=
  @Nat.rec (fun _ => String → PM String)
    (fun _ => perr ("fuel")) (fun _ ih => pathLoopStep ih) fuel

/-- `parser.path`. -/
def pathM (f : Nat) : PM String := do
  let t ← advanceM
  if !t.isIdent then perr ("expected ident")
  else pathLoopM f t.text

/-- `parser.principal`. -/
def principalM (f : Nat) (policy : XPolicy) : PM XPolicy := do
  exactM "principal"
  let t ← peekM
  if t.text == "==" then do
    let _ ← advanceM
    let e ← entityM f
    pure (policy.withPrincipal (.eqE e))
  else if t.text == "is" then do
    let _ ← advanceM
    let pth ← pathM f
    let t2 ← peekM
    if t2.text == "in" then do
      let _ ← advanceM
      let e ← entityM f
      pure (policy.withPrincipal (.isInT pth e))
    else pure (policy.withPrincipal (.isT pth))
  else if t.text == "in" then do
    let _ ← advanceM
    let e ← entityM f
    pure (policy.withPrincipal (.inE e))
  else pure policy

/-- One iteration of the `parser.entlist` loop; `f` feeds the nested
entity parse. -/
def entlistStep (f : Nat) (rec : List EntityUID → PM (List EntityUID))
    (acc : List EntityUID) : PM (List EntityUID) := do
  let t ← peekM
  if t.text == "]" then pure acc
  else do
    if acc.length > 0 then exactM "," else pure ()
    let e ← entityM f
    rec (acc ++ [e])

/-- `parser.entlist`: UIDs up to the closing bracket. -/
def entlistM (f : Nat) : List EntityUID → PM (List EntityUID) :=
  @Nat.rec (fun _ => List EntityUID → PM (List EntityUID))
    (fun _ => perr ("fuel")) (fun _ ih => entlistStep f ih) f

/-- `parser.action`. -/
def actionM (f : Nat) (policy : XPolicy) : PM XPolicy := do
  exactM "action"
  let t ← peekM
  if t.text == "==" then do
    let _ ← advanceM
    let e ← entityM f
    pure (policy.withAction (.eqE e))
  else if t.text == "in" then do
    let _ ← advanceM
    let t2 ← peekM
    if t2.text == "[" then do
      let _ ← advanceM
      let es ← entlistM f []
      let _ ← advanceM
      pure (policy.withAction (.inSet es))
    else do
      let e ← entityM f
      pure (policy.withAction (.inE e))
  else pure policy

/-- `parser.resource`. -/
def resourceM (f : Nat) (policy : XPolicy) : PM XPolicy := do
  exactM "resource"
  let t ← peekM
  if t.text == "==" then do
    let _ ← advanceM
    let e ← entityM f
    pure (policy.withResource (.eqE e))
  else if t.text == "is" then do
    let _ ← advanceM
    let pth ← pathM f
    let t2 ← peekM
    if t2.text == "in" then do
      let _ ← advanceM
      let e ← entityM f
      pure (policy.withResource (.isInT pth e))
    else pure (policy.withResource (.isT pth))
  else if t.text == "in" then do
    let _ ← advanceM
    let e ← entityM f
    pure (policy.withResource (.inE e))
  else pure policy

/-- The relational operator table of `parser.relation`. -/
def relOp (s : String) : Option (XNode → XNode → XNode) :=
  if s == "<" then some .ltN
  else if s == "<=" then some .leN
  else if s == ">" then some .gtN
  else if s == ">=" then some .geN
  else if s == "!=" then some .neN
  else if s == "==" then some .eqN
  else if s == "in" then some .inN
  else none

/-- The known-method table of `parser.access`. -/
def knownMethod (s : String) : Option (XNode → XNode → XNode) :=
  if s == "contains" then some .containsN
  else if s == "containsAll" then some .containsAllN
  else if s == "containsAny" then some .containsAnyN
  else none

/-! The expression grammar is mutually recursive in the source.  It is
embedded as one fueled dispatcher `pRun` over a request type, with one
step function per source function; the step functions receive the
recursive entry point `rec` as an argument.  This keeps every recursive
definition's body a single constant application, which is what lets the
kernel evaluate concrete parses. -/

/-- One request into the expression grammar: one constructor per
mutually recursive source function, carrying its extra arguments. -/
inductive PReq where
  | expr
  | orE
  | andE
  | relE
  | addE
  | multE
  | unaryE
  | memberE
  | memberLoop (res : XNode)
  | primaryE
  | exprs (endMark : String) (acc : List XNode)
  | recordE (entries : List (String × XNode))
  | recordEntryE
  | accessE (lhs : XNode)
  | condsE (policy : XPolicy)
  | condE

/-- A result from the expression grammar. -/
inductive PRes where
  | node (n : XNode)
  | nodes (ns : List XNode)
  | policy (p : XPolicy)
  | entry (e : String × XNode)
  | nodeBool (n : XNode) (b : Bool)

/-- Run a request and expect an expression node. -/
def recNode (rec : PReq → PM PRes) (q : PReq) : PM XNode := do
  let r ← rec q
  match r with
  | .node n => pure n
  | _ => perr ("internal")

/-- Run a request and expect a node list. -/
def recNodes (rec : PReq → PM PRes) (q : PReq) : PM (List XNode) := do
  let r ← rec q
  match r with
  | .nodes ns => pure ns
  | _ => perr ("internal")

/-- Run a request and expect a policy. -/
def recPolicy (rec : PReq → PM PRes) (q : PReq) : PM XPolicy := do
  let r ← rec q
  match r with
  | .policy p => pure p
  | _ => perr ("internal")

/-- Run a request and expect a record entry. -/
def recEntry (rec : PReq → PM PRes) (q : PReq) : PM (String × XNode) := do
  let r ← rec q
  match r with
  | .entry e => pure e
  | _ => perr ("internal")

/-- Run a request and expect the access result pair. -/
def recNodeBool (rec : PReq → PM PRes) (q : PReq) : PM (XNode × Bool) := do
  let r ← rec q
  match r with
  | .nodeBool n b => pure (n, b)
  | _ => perr ("internal")

/-- `parser.expression`. -/
def expressionR (rec : PReq → PM PRes) : PM XNode := do
  let t ← peekM
  if t.text == "if" then do
    let _ ← advanceM
    let condition ← recNode rec .expr
    exactM "then"
    let ifTrue ← recNode rec .expr
    exactM "else"
    let ifFalse ← recNode rec .expr
    pure (XNode.iteN condition ifTrue ifFalse)
  else recNode rec .orE

/-- `parser.or` — note the source parses at most one `||`. -/
def orR (rec : PReq → PM PRes) : PM XNode := do
  let lhs ← recNode rec .andE
  let t ← peekM
  if t.text != "||" then pure lhs
  else do
    let _ ← advanceM
    let rhs ← recNode rec .andE
    pure (XNode.orN lhs rhs)

/-- `parser.and` — at most one `&&`. -/
def andR (rec : PReq → PM PRes) : PM XNode := do
  let lhs ← recNode rec .relE
  let t ← peekM
  if t.text != "&&" then pure lhs
  else do
    let _ ← advanceM
    let rhs ← recNode rec .relE
    pure (XNode.andN lhs rhs)

/-- `parser.relation`, including the unimplemented `like`; `f` feeds the
nested `path` parse. -/
def relationR (f : Nat) (rec : PReq → PM PRes) : PM XNode := do
  let lhs ← recNode rec .addE
  let t ← peekM
  match relOp t.text with
  | some mk => do
    let _ ← advanceM
    let rhs ← recNode rec .addE
    pure (mk lhs rhs)
  | none =>
    if t.text == "has" then do
      let _ ← advanceM
      let t2 ← advanceM
      if t2.isIdent then pure (XNode.hasN lhs t2.text)
      else if t2.isString then
        match stringValue t2 with
        | .error e => perr e
        | .ok s => pure (XNode.hasN lhs s)
      else perr ("expected ident or string")
    else if t.text == "like" then perr ("unimplemented")
    else if t.text == "is" then do
      let _ ← advanceM
      let ty ← pathM f
      let t3 ← peekM
      if t3.text == "in" then do
        let _ ← advanceM
        let inEnt ← recNode rec .addE
        pure (XNode.isInN lhs ty inEnt)
      else pure (XNode.isN lhs ty)
    else pure lhs

/-- `parser.add` — at most one `+` or `-`. -/
def addR (rec : PReq → PM PRes) : PM XNode := do
  let lhs ← recNode rec .multE
  let t ← peekM
  if t.text == "+" then do
    let _ ← advanceM
    let rhs ← recNode rec .multE
    pure (XNode.addN lhs rhs)
  else if t.text == "-" then do
    let _ ← advanceM
    let rhs ← recNode rec .multE
    pure (XNode.subN lhs rhs)
  else pure lhs

/-- `parser.mult` — at most one `*`. -/
def multR (rec : PReq → PM PRes) : PM XNode := do
  let lhs ← recNode rec .unaryE
  let t ← peekM
  if t.text != "*" then pure lhs
  else do
    let _ ← advanceM
    let rhs ← recNode rec .unaryE
    pure (XNode.mulN lhs rhs)

/-- `parser.unary`: the source collects the prefix `!`/`-` operators and
applies them innermost-first to the member expression; the recursion here
builds the same nesting. -/
def unaryR (rec : PReq → PM PRes) : PM XNode := do
  let t ← peekM
  if t.text == "!" then do
    let _ ← advanceM
    let r ← recNode rec .unaryE
    pure (XNode.notN r)
  else if t.text == "-" then do
    let _ ← advanceM
    let r ← recNode rec .unaryE
    pure (XNode.negN r)
  else recNode rec .memberE

/-- `parser.member`. -/
def memberR (rec : PReq → PM PRes) : PM XNode := do
  let res ← recNode rec .primaryE
  recNode rec (.memberLoop res)

/-- The access loop of `parser.member`. -/
def memberLoopR (rec : PReq → PM PRes) (res : XNode) : PM XNode := do
  let r ← recNodeBool rec (.accessE res)
  if r.2 then recNode rec (.memberLoop r.1) else pure r.1

/-- `parser.entityOrExtFun`: only `ip` and `decimal` are functions, with a
parse-time-validated string argument; everything else is an entity.  `f`
feeds the entity path tail. -/
def entityOrExtFunR (f : Nat) (ident : String) : PM XNode :=
  if ident == "ip" || ident == "decimal" then do
    exactM "("
    let t ← advanceM
    if !t.isString then perr ("expected string")
    else
      match stringValue t with
      | .error e => perr e
      | .ok str => do
        exactM ")"
        if ident == "ip" then
          match parsePfxNet str with
          | .error e => perr e
          | .ok pfx => pure (XNode.ipLit pfx)
        else
          if parseFloatAccepts str then pure (XNode.decimalLit str)
          else perr ("invalid decimal literal")
  else do
    let e ← entityTailM f ident
    pure (XNode.entityLit e)

/-- `parser.primary`, with the source's case order; `f` feeds the entity
path tail inside `entityOrExtFun`. -/
def primaryR (f : Nat) (rec : PReq → PM PRes) : PM XNode := do
  let t ← advanceM
  if t.isInt then
    match intValue t with
    | .error e => perr e
    | .ok i => pure (XNode.longLit i)
  else if t.isString then
    match stringValue t with
    | .error e => perr e
    | .ok s => pure (XNode.strLit s)
  else if t.text == "true" then pure (XNode.boolLit true)
  else if t.text == "false" then pure (XNode.boolLit false)
  else if t.text == "principal" then pure XNode.principalVar
  else if t.text == "action" then pure XNode.actionVar
  else if t.text == "resource" then pure XNode.resourceVar
  else if t.text == "context" then pure XNode.contextVar
  else if t.isIdent then entityOrExtFunR f t.text
  else if t.text == "(" then do
    let e ← recNode rec .expr
    exactM ")"
    pure e
  else if t.text == "[" then do
    let es ← recNodes rec (.exprs "]" [])
    let _ ← advanceM
    pure (XNode.setN es)
  else if t.text == "\x7b" then recNode rec (.recordE [])
  else perr ("invalid primary")

/-- `parser.expressions`: comma-separated list up to the end marker. -/
def expressionsR (rec : PReq → PM PRes) (endMark : String) (acc : List XNode) :
    PM (List XNode) := do
  let t ← peekM
  if t.text == endMark then pure acc
  else do
    if acc.length > 0 then exactM "," else pure ()
    let e ← recNode rec .expr
    recNodes rec (.exprs endMark (acc ++ [e]))

/-- `parser.record`: entries with the duplicate-key check. -/
def recordR (rec : PReq → PM PRes) (entries : List (String × XNode)) : PM XNode := do
  let t ← peekM
  if t.text == "\x7d" then do
    let _ ← advanceM
    pure (XNode.recordN entries)
  else do
    if entries.length > 0 then exactM "," else pure ()
    let kv ← recEntry rec .recordEntryE
    if entries.any (fun e => e.1 == kv.1) then perr ("duplicate key: " ++ kv.1)
    else recNode rec (.recordE (entries ++ [kv]))

/-- `parser.recordEntry`. -/
def recordEntryR (rec : PReq → PM PRes) : PM (String × XNode) := do
  let t ← advanceM
  let key ←
    if t.isIdent then pure t.text
    else if t.isString then
      match stringValue t with
      | .error e => perr e
      | .ok s => pure s
    else perr ("unexpected token")
  exactM ":"
  let v ← recNode rec .expr
  pure (key, v)

/-- `parser.access`: `.attr`, method calls, and `["attr"]`. -/
def accessR (rec : PReq → PM PRes) (lhs : XNode) : PM (XNode × Bool) := do
  let t ← peekM
  if t.text == "." then do
    let _ ← advanceM
    let t2 ← advanceM
    if !t2.isIdent then perr ("unexpected token")
    else do
      let t3 ← peekM
      if t3.text == "(" then do
        let methodName := t2.text
        let _ ← advanceM
        let exprs ← recNodes rec (.exprs ")" [])
        let _ ← advanceM
        match knownMethod methodName with
        | some mk =>
          match exprs with
          | [a] => pure (mk lhs a, true)
          | _ => perr (methodName ++ " expects one argument")
        | none => pure (XNode.extMethodN lhs methodName exprs, true)
      else pure (XNode.accessN lhs t2.text, true)
  else if t.text == "[" then do
    let _ ← advanceM
    let t2 ← advanceM
    if !t2.isString then perr ("unexpected token")
    else
      match stringValue t2 with
      | .error e => perr e
      | .ok name => do
        exactM "]"
        pure (XNode.accessN lhs name, true)
  else pure (lhs, false)

/-- The when/unless loop of `parser.conditions`. -/
def conditionsR (rec : PReq → PM PRes) (policy : XPolicy) : PM XPolicy := do
  let t ← peekM
  if t.text == "when" then do
    let _ ← advanceM
    let e ← recNode rec .condE
    recPolicy rec (.condsE (policy.addCond .cwhen e))
  else if t.text == "unless" then do
    let _ ← advanceM
    let e ← recNode rec .condE
    recPolicy rec (.condsE (policy.addCond .cunless e))
  else pure policy

/-- `parser.condition`: a braced expression. -/
def conditionR (rec : PReq → PM PRes) : PM XNode := do
  exactM "\x7b"
  let res ← recNode rec .expr
  exactM "\x7d"
  pure res

/-- Dispatch one grammar request to its step function. -/
def pStep (f : Nat) (rec : PReq → PM PRes) : PReq → PM PRes
  | .expr => do let n ← expressionR rec; pure (.node n)
  | .orE => do let n ← orR rec; pure (.node n)
  | .andE => do let n ← andR rec; pure (.node n)
  | .relE => do let n ← relationR f rec; pure (.node n)
  | .addE => do let n ← addR rec; pure (.node n)
  | .multE => do let n ← multR rec; pure (.node n)
  | .unaryE => do let n ← unaryR rec; pure (.node n)
  | .memberE => do let n ← memberR rec; pure (.node n)
  | .memberLoop res => do let n ← memberLoopR rec res; pure (.node n)
  | .primaryE => do let n ← primaryR f rec; pure (.node n)
  | .exprs endMark acc => do let ns ← expressionsR rec endMark acc; pure (.nodes ns)
  | .recordE entries => do let n ← recordR rec entries; pure (.node n)
  | .recordEntryE => do let e ← recordEntryR rec; pure (.entry e)
  | .accessE lhs => do let r ← accessR rec lhs; pure (.nodeBool r.1 r.2)
  | .condsE policy => do let p ← conditionsR rec policy; pure (.policy p)
  | .condE => do let n ← conditionR rec; pure (.node n)

/-- The fueled entry point into the expression grammar. -/
def pRun (f : Nat) (g : Nat) : PReq → PM PRes :=
  @Nat.rec (fun _ => PReq → PM PRes)
    (fun _ => perr ("fuel")) (fun _ ih => pStep f ih) g

/-- `policyFromCedar`: the policy production. -/
def policyFromCedarF (f : Nat) : PM XPolicy := do
  let annos ← annosM f []
  let policy ← effectM annos
  exactM "("
  let policy ← principalM f policy
  exactM ","
  let policy ← actionM f policy
  exactM ","
  let policy ← resourceM f policy
  exactM ")"
  let policy ← recPolicy (pRun f f) (.condsE policy)
  exactM ";"
  pure policy

/-- Lex and parse one policy text with the experimental parser. -/
def parseXPolicy (s : String) : Except String XPolicy :=
  match lexCedar s with
  | .error e => .error e
  | .ok toks =>
    match policyFromCedarF (10 * toks.length + 100) (PState.mk toks 0) with
    | .error e => .error e
    | .ok r => .ok r.1

/-- Did a parse succeed? -/
def isOkE {α : Type} : Except String α → Bool
  | .ok _ => true
  | .error _ => false

/-! ## Lemmas: structural equality of values is an equivalence -/

theorem memEq_exists {x : Value} {l : List Value} :
    memEq x l = true ↔ ∃ y ∈ l, valueEq x y = true := by
  induction l with
  | nil => simp [memEq]
  | cons y ys ih =>
    simp only [memEq, Bool.or_eq_true, ih, List.mem_cons]
    constructor
    · rintro (h | ⟨z, hz, hvz⟩)
      · exact ⟨y, Or.inl rfl, h⟩
      · exact ⟨z, Or.inr hz, hvz⟩
    · rintro ⟨z, hz | hz, hvz⟩
      · exact Or.inl (hz ▸ hvz)
      · exact Or.inr ⟨z, hz, hvz⟩

theorem subEq_forall {l r : List Value} :
    subEq l r = true ↔ ∀ x ∈ l, memEq x r = true := by
  induction l with
  | nil => simp [subEq]
  | cons x xs ih => simp [subEq, Bool.and_eq_true, ih]

theorem recHas_exists {k : String} {v : Value} {l : List (String × Value)} :
    recHas k v l = true ↔ ∃ p ∈ l, k = p.1 ∧ valueEq v p.2 = true := by
  induction l with
  | nil => simp [recHas]
  | cons p ps ih =>
    obtain ⟨k2, v2⟩ := p
    simp only [recHas, Bool.or_eq_true, Bool.and_eq_true, beq_iff_eq, ih, List.mem_cons]
    constructor
    · rintro (⟨hk, hv⟩ | ⟨q, hq, hkq, hvq⟩)
      · exact ⟨(k2, v2), Or.inl rfl, hk, hv⟩
      · exact ⟨q, Or.inr hq, hkq, hvq⟩
    · rintro ⟨q, hq | hq, hkq, hvq⟩
      · subst hq; exact Or.inl ⟨hkq, hvq⟩
      · exact Or.inr ⟨q, hq, hkq, hvq⟩

theorem recSub_forall {l r : List (String × Value)} :
    recSub l r = true ↔ ∀ p ∈ l, recHas p.1 p.2 r = true := by
  induction l with
  | nil => simp [recSub]
  | cons p ps ih =>
    obtain ⟨k, v⟩ := p
    simp [recSub, Bool.and_eq_true, ih]

theorem valueEq_refl (v : Value) : valueEq v v = true := by
  suffices H : ∀ n (v : Value), sizeOf v = n → valueEq v v = true from H _ v rfl
  intro n
  induction n using Nat.strong_induction_on with
  | _ n ih =>
    intro v hv
    cases v with
    | boolean b => simp [valueEq]
    | long i => simp [valueEq]
    | str s => simp [valueEq]
    | entity e => simp [valueEq]
    | ipaddr a b c => simp [valueEq]
    | decim d => simp [valueEq]
    | set xs =>
      have hsub : subEq xs xs = true := by
        refine subEq_forall.mpr (fun x hx => memEq_exists.mpr ⟨x, hx, ?_⟩)
        refine ih (sizeOf x) ?_ x rfl
        have h1 := List.sizeOf_lt_of_mem hx
        subst hv
        try simp only [Value.set.sizeOf_spec]
        omega
      simp [valueEq, hsub]
    | record fs =>
      have hsub : recSub fs fs = true := by
        refine recSub_forall.mpr (fun p hp => recHas_exists.mpr ⟨p, hp, rfl, ?_⟩)
        refine ih (sizeOf p.2) ?_ p.2 rfl
        have h1 := List.sizeOf_lt_of_mem hp
        obtain ⟨k, w⟩ := p
        subst hv
        try simp only [Value.record.sizeOf_spec]
        simp only [Prod.mk.sizeOf_spec] at h1
        omega
      simp [valueEq, hsub]

theorem valueEq_symm {a b : Value} (h : valueEq a b = true) : valueEq b a = true := by
  cases a <;> cases b <;>
    simp only [valueEq, Bool.and_eq_true, beq_iff_eq] at h ⊢ <;>
    try exact h
  case boolean.boolean => exact h.symm
  case long.long => exact h.symm
  case str.str => exact h.symm
  case set.set => exact ⟨h.2, h.1⟩
  case record.record => exact ⟨h.2, h.1⟩
  case entity.entity => exact h.symm
  case ipaddr.ipaddr => exact ⟨⟨h.1.1.symm, h.1.2.symm⟩, h.2.symm⟩
  case decim.decim => exact h.symm

theorem valueEq_trans {a b c : Value} (h1 : valueEq a b = true)
    (h2 : valueEq b c = true) : valueEq a c = true := by
  suffices H : ∀ n (a b c : Value), sizeOf a + sizeOf b + sizeOf c = n →
      valueEq a b = true → valueEq b c = true → valueEq a c = true from
    H _ a b c rfl h1 h2
  clear h1 h2 a b c
  intro n
  induction n using Nat.strong_induction_on with
  | _ n ih =>
    intro a b c hsz h1 h2
    cases a <;> cases b <;> simp [valueEq] at h1 <;> cases c <;>
      simp only [valueEq, Bool.and_eq_true, beq_iff_eq] at h2 ⊢ <;>
      try simp_all
    case set.set.set xs ys zs =>
      obtain ⟨hxy, hyx⟩ := h1
      obtain ⟨hyz, hzy⟩ := h2
      have hstep : ∀ (us vs ws : List Value), sizeOf us + sizeOf vs + sizeOf ws ≤ sizeOf xs + sizeOf ys + sizeOf zs →
          subEq us vs = true → subEq vs ws = true → subEq us ws = true := by
        intro us vs ws hle huv hvw
        refine subEq_forall.mpr (fun x hx => ?_)
        obtain ⟨y, hy, hvxy⟩ := memEq_exists.mp (subEq_forall.mp huv x hx)
        obtain ⟨z, hz, hvyz⟩ := memEq_exists.mp (subEq_forall.mp hvw y hy)
        refine memEq_exists.mpr ⟨z, hz, ?_⟩
        refine ih (sizeOf x + sizeOf y + sizeOf z) ?_ x y z rfl hvxy hvyz
        have e1 := List.sizeOf_lt_of_mem hx
        have e2 := List.sizeOf_lt_of_mem hy
        have e3 := List.sizeOf_lt_of_mem hz
        subst hsz
        try simp only [Value.set.sizeOf_spec]
        omega
      constructor
      · exact hstep xs ys zs (by omega) hxy hyz
      · have := hstep zs ys xs ?_ hzy hyx
        · exact this
        · omega
    case record.record.record xs ys zs =>
      obtain ⟨hxy, hyx⟩ := h1
      obtain ⟨hyz, hzy⟩ := h2
      have hstep : ∀ (us vs ws : List (String × Value)),
          sizeOf us + sizeOf vs + sizeOf ws ≤ sizeOf xs + sizeOf ys + sizeOf zs →
          recSub us vs = true → recSub vs ws = true → recSub us ws = true := by
        intro us vs ws hle huv hvw
        refine recSub_forall.mpr (fun p hp => ?_)
        obtain ⟨q, hq, hkq, hvq⟩ := recHas_exists.mp (recSub_forall.mp huv p hp)
        obtain ⟨r, hr, hkr, hvr⟩ := recHas_exists.mp (recSub_forall.mp hvw q hq)
        refine recHas_exists.mpr ⟨r, hr, hkq.trans hkr, ?_⟩
        refine ih (sizeOf p.2 + sizeOf q.2 + sizeOf r.2) ?_ p.2 q.2 r.2 rfl hvq hvr
        have e1 := List.sizeOf_lt_of_mem hp
        have e2 := List.sizeOf_lt_of_mem hq
        have e3 := List.sizeOf_lt_of_mem hr
        obtain ⟨k1, w1⟩ := p
        obtain ⟨k2, w2⟩ := q
        obtain ⟨k3, w3⟩ := r
        subst hsz
        try simp only [Value.record.sizeOf_spec]
        simp only [Prod.mk.sizeOf_spec] at e1 e2 e3
        omega
      constructor
      · exact hstep xs ys zs (by omega) hxy hyz
      · exact hstep zs ys xs (by omega) hzy hyx

theorem mem_of_mem_newSetList {l : List Value} {y : Value}
    (h : y ∈ newSetList l) : y ∈ l := by
  suffices H : ∀ n (l : List Value), l.length = n → ∀ y ∈ newSetList l, y ∈ l from
    H _ l rfl y h
  clear h y l
  intro n
  induction n using Nat.strong_induction_on with
  | _ n ih =>
    intro l hl y hy
    cases l with
    | nil => simp [newSetList] at hy
    | cons v vs =>
      rw [newSetList] at hy
      rcases List.mem_cons.mp hy with h1 | h1
      · exact h1 ▸ List.mem_cons_self v vs
      · have hlen := List.length_filter_le (fun w => !valueEq w v) vs
        have := ih (vs.filter (fun w => !valueEq w v)).length (by simp at hl; omega) _ rfl y h1
        exact List.mem_cons_of_mem v (List.mem_of_mem_filter this)

theorem memEq_newSetList {l : List Value} {v : Value} (h : memEq v l = true) :
    memEq v (newSetList l) = true := by
  suffices H : ∀ n (l : List Value), l.length = n → ∀ v, memEq v l = true →
      memEq v (newSetList l) = true from H _ l rfl v h
  clear h v l
  intro n
  induction n using Nat.strong_induction_on with
  | _ n ih =>
    intro l hl v hv
    cases l with
    | nil => simp [memEq] at hv
    | cons x xs =>
      rw [newSetList]
      by_cases hvx : valueEq v x = true
      · simp [memEq, hvx]
      · have hx : memEq v xs = true := by
          rcases Bool.or_eq_true _ _ |>.mp (by simpa [memEq] using hv) with h1 | h1
          · exact absurd h1 hvx
          · exact h1
        obtain ⟨y, hy, hvy⟩ := memEq_exists.mp hx
        have hyx : valueEq y x = false := by
          by_contra hne
          have : valueEq y x = true := by
            cases hxy : valueEq y x
            · exact absurd hxy hne
            · rfl
          exact hvx (valueEq_trans hvy this)
        have hmemf : memEq v (xs.filter (fun w => !valueEq w x)) = true := by
          refine memEq_exists.mpr ⟨y, ?_, hvy⟩
          exact List.mem_filter.mpr ⟨hy, by simp [hyx]⟩
        have hlen := List.length_filter_le (fun w => !valueEq w x) xs
        have := ih (xs.filter (fun w => !valueEq w x)).length (by simp at hl; omega) _ rfl v hmemf
        simp [memEq, this]

/-- Mutual eq-membership of the inputs gives equality of the constructed
sets. -/
theorem newSet_eq_of_mutual {A B : List Value}
    (hAB : ∀ x ∈ A, memEq x B = true) (hBA : ∀ y ∈ B, memEq y A = true) :
    valueEq (NewSet A) (NewSet B) = true := by
  have h1 : subEq (newSetList A) (newSetList B) = true := by
    refine subEq_forall.mpr (fun x hx => ?_)
    exact memEq_newSetList (hAB x (mem_of_mem_newSetList hx))
  have h2 : subEq (newSetList B) (newSetList A) = true := by
    refine subEq_forall.mpr (fun y hy => ?_)
    exact memEq_newSetList (hBA y (mem_of_mem_newSetList hy))
  simp [NewSet, valueEq, h1, h2]


/-! ## Embedding validation: lexer and parser reproduce the repository's
test expectations on accepted inputs -/

theorem lexCedar_example : lexCedar ("@a(\"b\") 1 <= x::\"y\"") =
    .ok [Token.mk .op "@", Token.mk .tIdent "a", Token.mk .op "(", Token.mk .tStr "b",
      Token.mk .op ")", Token.mk .tInt "1", Token.mk .op "<=", Token.mk .tIdent "x",
      Token.mk .op "::", Token.mk .tStr "y", Token.mk .eof ""] := by rfl

theorem parse_annotation_example :
    parseXPolicy ("@foo(\"bar\")\npermit ( principal, action, resource );") =
      .ok (XPolicy.mk .permit [("foo", "bar")] .scopeAll .scopeAll .scopeAll []) := by rfl

set_option maxRecDepth 8192 in
theorem parse_scope_eq_example :
    parseXPolicy ("permit (\n    principal == User::\"johnny\",\n    action == Action::\"sow\",\n    resource == Crop::\"apple\"\n);") =
      .ok (XPolicy.mk .permit [] (.eqE (EntityUID.mk "User" "johnny"))
        (.eqE (EntityUID.mk "Action" "sow")) (.eqE (EntityUID.mk "Crop" "apple")) []) := by rfl

set_option maxRecDepth 8192 in
theorem parse_scope_is_in_example :
    parseXPolicy ("permit (\n    principal is User in Group::\"folkHeroes\",\n    action in [ActionType::\"farming\", ActionType::\"forestry\"],\n    resource is Crop\n);") =
      .ok (XPolicy.mk .permit [] (.isInT "User" (EntityUID.mk "Group" "folkHeroes"))
        (.inSet [EntityUID.mk "ActionType" "farming", EntityUID.mk "ActionType" "forestry"])
        (.isT "Crop") []) := by rfl

set_option maxRecDepth 8192 in
theorem parse_conditions_example :
    parseXPolicy ("forbid ( principal, action, resource )\nwhen \x7b principal has firstName \x7d\nunless \x7b -context.num \x7d;") =
      .ok (XPolicy.mk .forbid [] .scopeAll .scopeAll .scopeAll
        [(.cwhen, XNode.hasN XNode.principalVar "firstName"),
         (.cunless, XNode.negN (XNode.accessN XNode.contextVar "num"))]) := by rfl

/-! ## Claim theorems -/

/-- C4: set equality is order- and multiplicity-insensitive and
construction absorbs duplicates: for all values `a b c`,
`NewSet [a,b,c]` equals `NewSet [c,b,a,b]`, `NewSet [a,a]` has length 1,
and nested sets compare the same way. -/
theorem c4_set_equality (a b c : Value) :
    valueEq (NewSet [a, b, c]) (NewSet [c, b, a, b]) = true ∧
    setLen (NewSet [a, a]) = 1 ∧
    valueEq (NewSet [NewSet [a, b], c]) (NewSet [c, NewSet [b, a, a]]) = true := by
  refine ⟨?_, ?_, ?_⟩
  · refine newSet_eq_of_mutual ?_ ?_ <;> intro x hx <;> fin_cases hx <;>
      simp [memEq, valueEq_refl]
  · simp [NewSet, setLen, newSetList, List.filter, valueEq_refl]
  · have hinner : valueEq (NewSet [a, b]) (NewSet [b, a, a]) = true := by
      refine newSet_eq_of_mutual ?_ ?_ <;> intro x hx <;> fin_cases hx <;>
        simp [memEq, valueEq_refl]
    refine newSet_eq_of_mutual ?_ ?_
    · intro x hx
      fin_cases hx
      · simp [memEq, hinner]
      · simp [memEq, valueEq_refl]
    · intro y hy
      fin_cases hy
      · simp [memEq, valueEq_refl]
      · simp [memEq, valueEq_symm hinner]

/-- C8: `NewSet` defensively copies its input: constructing a set from a
source array and then overwriting any element of that source leaves the
set's elements (and so its length) the deduplicated copy of the original
contents. -/
theorem c8_newset_defensive_copy (m : Mem) (src i : Nat) (v : Value)
    (h : src < m.length) :
    setHElems (writeElem (newSetH m src).1 src i v) (newSetH m src).2 =
      newSetList (readArr m src) ∧
    setHLen (writeElem (newSetH m src).1 src i v) (newSetH m src).2 =
      (newSetList (readArr m src)).length := by
  have he : setHElems (writeElem (newSetH m src).1 src i v) (newSetH m src).2 =
      newSetList (readArr m src) := by
    simp only [newSetH, writeElem, setHElems, readArr]
    rw [List.set_append_left _ _ h]
    rw [List.getD_append_right _ _ _ _ (by simp)]
    simp
  exact ⟨he, by simp [setHLen, he]⟩

/-- C8 witness: the concrete scenario of the `immutable` test — build a
set from `[Long 42]`, overwrite the source slot with `Long 1337`, and the
set still holds `[Long 42]`. -/
theorem c8_newset_defensive_copy_witness :
    (0 : Nat) < ([[Value.long 42]] : Mem).length ∧
    (setHElems (writeElem (newSetH [[Value.long 42]] 0).1 0 0 (Value.long 1337))
        (newSetH [[Value.long 42]] 0).2 =
      newSetList (readArr [[Value.long 42]] 0) ∧
     setHLen (writeElem (newSetH [[Value.long 42]] 0).1 0 0 (Value.long 1337))
        (newSetH [[Value.long 42]] 0).2 =
      (newSetList (readArr [[Value.long 42]] 0)).length) :=
  ⟨by simp, c8_newset_defensive_copy [[Value.long 42]] 0 0 (Value.long 1337) (by simp)⟩

/-- C9: with a nonempty token stream and the position in bounds, `peek`
reads the current token, `advance` returns it and never moves the
position past the last token, and at the last token it leaves the parser
state unchanged, so it keeps returning the final token. -/
theorem c9_advance_stays_in_bounds (p : PState) (_h1 : p.tokens ≠ [])
    (h2 : p.pos < p.tokens.length) :
    peekT p = p.tokens.get ⟨p.pos, h2⟩ ∧
    (advanceT p).1 = p.tokens.get ⟨p.pos, h2⟩ ∧
    (advanceT p).2.tokens = p.tokens ∧
    (advanceT p).2.pos < p.tokens.length ∧
    (advanceT p).2.pos = min (p.pos + 1) (p.tokens.length - 1) ∧
    (p.pos = p.tokens.length - 1 → (advanceT p).2 = p) := by
  have hpeek : peekT p = p.tokens.get ⟨p.pos, h2⟩ := by
    rw [peekT, List.getD_eq_getElem _ _ h2, List.get_eq_getElem]
  by_cases hc : p.pos < p.tokens.length - 1
  · have ha : advanceT p = (peekT p, PState.mk p.tokens (p.pos + 1)) := by
      rw [advanceT, if_pos hc]
    rw [ha]
    refine ⟨hpeek, hpeek, rfl, ?_, ?_, fun he => absurd hc (by omega)⟩
    · show p.pos + 1 < p.tokens.length
      omega
    · show p.pos + 1 = min (p.pos + 1) (p.tokens.length - 1)
      omega
  · have ha : advanceT p = (peekT p, p) := by
      rw [advanceT, if_neg hc]
    rw [ha]
    refine ⟨hpeek, hpeek, rfl, h2, ?_, fun _ => rfl⟩
    show p.pos = min (p.pos + 1) (p.tokens.length - 1)
    omega

/-- C9 witness: a two-token stream already at the last token — `advance`
leaves the state unchanged. -/
theorem c9_advance_stays_in_bounds_witness :
    (PState.mk [Token.mk .op "(", Token.mk .eof ""] 1).tokens ≠ [] ∧
    (PState.mk [Token.mk .op "(", Token.mk .eof ""] 1).pos <
      (PState.mk [Token.mk .op "(", Token.mk .eof ""] 1).tokens.length ∧
    (advanceT (PState.mk [Token.mk .op "(", Token.mk .eof ""] 1)).2 =
      PState.mk [Token.mk .op "(", Token.mk .eof ""] 1 :=
  ⟨by simp, by simp,
    (c9_advance_stays_in_bounds (PState.mk [Token.mk .op "(", Token.mk .eof ""] 1)
      (by simp) (by simp)).2.2.2.2.2 rfl⟩

/-- C3: the round-trip claim fails on the parser in `src`: the canonical
policy text with a `like` clause (byte-for-byte the round-trip text of the
repository's own `TestParsePolicy`) does not parse at all — `relation`
rejects `like` with `unimplemented` — so serializing the parse result
cannot reproduce the text. -/
theorem c3_roundtrip_fails_on_like :
    parseXPolicy ("permit ( principal, action, resource )\nwhen \x7b principal.firstName like \"johnny\" \x7d;") =
      .error ("unimplemented") := by rfl

/-- C5: the extension-literal claim diverges from the code: a bare
address `ip("1.2.3.4")` is rejected (`netip.ParsePrefix` requires a
slash; nothing promotes it to `/32`), while `decimal("123.45678")` with
five fractional digits is accepted (`strconv.ParseFloat` has no
fractional-digit limit); a true CIDR argument is accepted. -/
theorem c5_ip_decimal_validation_divergence :
    parseXPolicy ("permit ( principal, action, resource )\nwhen \x7b ip(\"1.2.3.4\") == ip(\"2.3.4.5\") \x7d;") =
      .error ("netip: no slash in ip literal") ∧
    isOkE (parseXPolicy ("permit ( principal, action, resource )\nwhen \x7b decimal(\"123.45678\") == decimal(\"0.1\") \x7d;")) = true ∧
    isOkE (parseXPolicy ("permit ( principal, action, resource )\nwhen \x7b ip(\"10.0.0.0/8\") == ip(\"10.1.2.3/32\") \x7d;")) = true :=
  ⟨by rfl, by rfl, by rfl⟩

/-- C6: repetition of same-precedence binary operators is rejected by the
parser in `src`: `or`/`add` parse at most one operator, so `42 + 2 + 1`
and `true || false || true` fail (the leftover operator trips the
condition's closing-brace check), while the single-operator forms
parse. -/
theorem c6_repeated_binary_operators_rejected :
    parseXPolicy ("permit ( principal, action, resource )\nwhen \x7b 42 + 2 + 1 \x7d;") =
      .error ("exact got + want \x7d") ∧
    parseXPolicy ("permit ( principal, action, resource )\nwhen \x7b true || false || true \x7d;") =
      .error ("exact got || want \x7d") ∧
    parseXPolicy ("permit ( principal, action, resource )\nwhen \x7b 42 + 2 \x7d;") =
      .ok (XPolicy.mk .permit [] .scopeAll .scopeAll .scopeAll
        [(.cwhen, XNode.addN (XNode.longLit 42) (XNode.longLit 2))]) :=
  ⟨by rfl, by rfl, by rfl⟩

/-- C7: the claimed parse errors do not occur in the parser in `src`:
an unknown method call `context.not_an_extension_method()` parses
successfully (into an extension-method node), `context.ip()` also parses
successfully, and an unknown function call `not_an_extension_fn()` fails
with the entity-path message `exact got ( want ::`, not with
a not-a-function message. -/
theorem c7_method_call_parse_divergence :
    parseXPolicy ("permit ( principal, action, resource ) when \x7b context.not_an_extension_method() \x7d;") =
      .ok (XPolicy.mk .permit [] .scopeAll .scopeAll .scopeAll
        [(.cwhen, XNode.extMethodN XNode.contextVar "not_an_extension_method" [])]) ∧
    parseXPolicy ("permit ( principal, action, resource ) when \x7b context.ip() \x7d;") =
      .ok (XPolicy.mk .permit [] .scopeAll .scopeAll .scopeAll
        [(.cwhen, XNode.extMethodN XNode.contextVar "ip" [])]) ∧
    parseXPolicy ("permit ( principal, action, resource ) when \x7b not_an_extension_fn() \x7d;") =
      .error ("exact got ( want ::") :=
  ⟨by rfl, by rfl, by rfl⟩


/-! ## Lemmas: the authorizer loop -/

theorem policyOutcome_error_firedB {c : EvalContext} {po : CPolicy} {e : String}
    (h : policyOutcome c po = .error e) : firedB c po = false := by
  simp [firedB, h]

theorem runPolicies_spec (c : EvalContext) (ps : List CPolicy) :
    ∀ (n : Nat) (acc : AuthzAcc),
    runPolicies c n ps acc =
      AuthzAcc.mk
        (acc.gotForbid || anyFired c .forbid ps)
        (acc.forbidReasons ++ reasonsOfFrom c .forbid n ps)
        (acc.gotPermit || anyFired c .permit ps)
        (acc.permitReasons ++ reasonsOfFrom c .permit n ps)
        (acc.errors ++ errorsOfFrom c n ps) := by
  induction ps with
  | nil =>
    intro n acc
    simp [runPolicies, anyFired, reasonsOfFrom, errorsOfFrom]
  | cons po rest ih =>
    intro n acc
    have hrun : runPolicies c n (po :: rest) acc =
        runPolicies c (n + 1) rest (authzStep c acc n po) := rfl
    rw [hrun, ih]
    rcases hev : po.eval c with e | v
    · have hpo : policyOutcome c po = .error e := by simp [policyOutcome, hev]
      have hf : firedB c po = false := by simp [firedB, hpo]
      simp [authzStep, hev, anyFired, List.any_cons, hf, reasonsOfFrom,
        errorsOfFrom, hpo, List.append_assoc]
    · rcases hvb : ValueToBool v with e | b
      · have hpo : policyOutcome c po = .error e := by simp [policyOutcome, hev, hvb]
        have hf : firedB c po = false := by simp [firedB, hpo]
        simp [authzStep, hev, hvb, anyFired, List.any_cons, hf, reasonsOfFrom,
          errorsOfFrom, hpo, List.append_assoc]
      · have hpo : policyOutcome c po = .ok b := by simp [policyOutcome, hev, hvb]
        cases b
        · have hf : firedB c po = false := by simp [firedB, hpo]
          simp [authzStep, hev, hvb, anyFired, List.any_cons, hf, reasonsOfFrom,
            errorsOfFrom, hpo, List.append_assoc]
        · have hf : firedB c po = true := by simp [firedB, hpo]
          have hpf : (Effect.permit == Effect.forbid) = false := rfl
          have hfp : (Effect.forbid == Effect.permit) = false := rfl
          cases heff : po.effect
          · simp [authzStep, hev, hvb, heff, anyFired, List.any_cons, hf, hpf, hfp,
              reasonsOfFrom, errorsOfFrom, hpo, List.append_assoc]
          · simp [authzStep, hev, hvb, heff, anyFired, List.any_cons, hf, hpf, hfp,
              reasonsOfFrom, errorsOfFrom, hpo, List.append_assoc]

theorem reasonsOfFrom_nil_of_not_fired {c : EvalContext} {eff : Effect}
    {ps : List CPolicy} (h : anyFired c eff ps = false) (n : Nat) :
    reasonsOfFrom c eff n ps = [] := by
  induction ps generalizing n with
  | nil => simp [reasonsOfFrom]
  | cons po rest ih =>
    have h3 := h
    unfold anyFired at h3
    rw [List.any_cons] at h3
    have h2 := Bool.or_eq_false_iff.mp h3
    simp [reasonsOfFrom, h2.1, ih h2.2]

/-- The decision-rule characterisation of `IsAuthorized`, shared by the
claims about the authorizer. -/
theorem isAuthorized_spec (ps : List CPolicy) (ents : Entities) (req : Request) :
    IsAuthorized ps ents req =
      (anyFired (mkEvalContext ents req) .permit ps &&
         !anyFired (mkEvalContext ents req) .forbid ps,
       Diagnostic.mk
         (if anyFired (mkEvalContext ents req) .forbid ps then
            reasonsOfFrom (mkEvalContext ents req) .forbid 0 ps
          else reasonsOfFrom (mkEvalContext ents req) .permit 0 ps)
         (errorsOfFrom (mkEvalContext ents req) 0 ps)) := by
  unfold IsAuthorized
  dsimp only
  rw [runPolicies_spec]
  simp only [Bool.false_or, List.nil_append]
  by_cases hf : anyFired (mkEvalContext ents req) .forbid ps
  · simp [hf]
  · simp only [hf, if_false, Bool.false_eq_true]
    by_cases hp : anyFired (mkEvalContext ents req) .permit ps
    · simp [hf, hp]
    · simp [hf, hp, reasonsOfFrom_nil_of_not_fired (Bool.not_eq_true _ ▸ hp) 0]

theorem anyFired_append (c : EvalContext) (eff : Effect) (l1 l2 : List CPolicy) :
    anyFired c eff (l1 ++ l2) = (anyFired c eff l1 || anyFired c eff l2) := by
  simp [anyFired, List.any_append]

theorem reasonsOfFrom_append (c : EvalContext) (eff : Effect) (l1 l2 : List CPolicy) :
    ∀ n, reasonsOfFrom c eff n (l1 ++ l2) =
      reasonsOfFrom c eff n l1 ++ reasonsOfFrom c eff (n + l1.length) l2 := by
  induction l1 with
  | nil => intro n; simp [reasonsOfFrom]
  | cons po rest ih =>
    intro n
    have harith : n + 1 + rest.length = n + (rest.length + 1) := by omega
    simp [reasonsOfFrom, ih, harith, List.append_assoc]

theorem errorsOfFrom_append (c : EvalContext) (l1 l2 : List CPolicy) :
    ∀ n, errorsOfFrom c n (l1 ++ l2) =
      errorsOfFrom c n l1 ++ errorsOfFrom c (n + l1.length) l2 := by
  induction l1 with
  | nil => intro n; simp [errorsOfFrom]
  | cons po rest ih =>
    intro n
    have harith : n + 1 + rest.length = n + (rest.length + 1) := by omega
    simp [errorsOfFrom, ih, harith, List.append_assoc]

/-- C1: the decision is `Allow` exactly when some permit policy evaluated
to `true` and no forbid policy did; `Diagnostic.Reasons` is the fired
forbid (policy-index, position) list if any forbid fired, otherwise the
fired permit list; `Diagnostic.Errors` lists every erroring policy in
policy order. -/
theorem c1_decision_rule (ps : List CPolicy) (ents : Entities) (req : Request) :
    IsAuthorized ps ents req =
      (anyFired (mkEvalContext ents req) .permit ps &&
         !anyFired (mkEvalContext ents req) .forbid ps,
       Diagnostic.mk
         (if anyFired (mkEvalContext ents req) .forbid ps then
            reasonsOfFrom (mkEvalContext ents req) .forbid 0 ps
          else reasonsOfFrom (mkEvalContext ents req) .permit 0 ps)
         (errorsOfFrom (mkEvalContext ents req) 0 ps)) :=
  isAuthorized_spec ps ents req

/-- C2: an erroring policy adds exactly one `{index, position, message}`
entry to the errors, in policy order, contributes no reason, and leaves
the decision and every other policy's contribution (with their original
indices) unchanged relative to the same set without it. -/
theorem c2_error_isolation (ents : Entities) (req : Request)
    (l1 l2 : List CPolicy) (po : CPolicy) (msg : String)
    (h : policyOutcome (mkEvalContext ents req) po = .error msg) :
    (IsAuthorized (l1 ++ po :: l2) ents req).1 =
      (IsAuthorized (l1 ++ l2) ents req).1 ∧
    (IsAuthorized (l1 ++ po :: l2) ents req).2.errors =
      errorsOfFrom (mkEvalContext ents req) 0 l1 ++
        AuthzError.mk l1.length po.position msg ::
          errorsOfFrom (mkEvalContext ents req) (l1.length + 1) l2 ∧
    (IsAuthorized (l1 ++ po :: l2) ents req).2.reasons =
      (if anyFired (mkEvalContext ents req) .forbid l1 ||
           anyFired (mkEvalContext ents req) .forbid l2 then
         reasonsOfFrom (mkEvalContext ents req) .forbid 0 l1 ++
           reasonsOfFrom (mkEvalContext ents req) .forbid (l1.length + 1) l2
       else
         reasonsOfFrom (mkEvalContext ents req) .permit 0 l1 ++
           reasonsOfFrom (mkEvalContext ents req) .permit (l1.length + 1) l2) := by
  have hf := policyOutcome_error_firedB h
  have hany : ∀ eff, anyFired (mkEvalContext ents req) eff (l1 ++ po :: l2) =
      (anyFired (mkEvalContext ents req) eff l1 ||
        anyFired (mkEvalContext ents req) eff l2) := by
    intro eff
    simp [anyFired_append, anyFired, List.any_cons, hf]
  have hreasons : ∀ eff, reasonsOfFrom (mkEvalContext ents req) eff 0 (l1 ++ po :: l2) =
      reasonsOfFrom (mkEvalContext ents req) eff 0 l1 ++
        reasonsOfFrom (mkEvalContext ents req) eff (l1.length + 1) l2 := by
    intro eff
    rw [reasonsOfFrom_append]
    simp [reasonsOfFrom, hf]
  have herrors : errorsOfFrom (mkEvalContext ents req) 0 (l1 ++ po :: l2) =
      errorsOfFrom (mkEvalContext ents req) 0 l1 ++
        AuthzError.mk l1.length po.position msg ::
          errorsOfFrom (mkEvalContext ents req) (l1.length + 1) l2 := by
    rw [errorsOfFrom_append]
    simp [errorsOfFrom, h]
  refine ⟨?_, ?_, ?_⟩
  · rw [isAuthorized_spec, isAuthorized_spec]
    simp [hany, anyFired_append]
  · rw [isAuthorized_spec]
    simpa using herrors
  · rw [isAuthorized_spec]
    simp [hany, hreasons]

/-- Concrete policies for the C2 witness: a firing permit, an erroring
forbid, and a non-firing forbid. -/
def wReq : Request :=
  Request.mk (EntityUID.mk "User" "alice") (EntityUID.mk "Action" "view")
    (EntityUID.mk "Doc" "d1") []

def wPermit : CPolicy :=
  CPolicy.mk (Position.mk "f" 0 1 1) .permit (fun _ => .ok (.boolean true))

def wErr : CPolicy :=
  CPolicy.mk (Position.mk "f" 10 2 1) .forbid (fun _ => .error ("boom"))

def wQuiet : CPolicy :=
  CPolicy.mk (Position.mk "f" 20 3 1) .forbid (fun _ => .ok (.boolean false))

/-- C2 witness: with the erroring forbid between the two other policies,
the theorem applies and every hypothesis holds at the concrete input. -/
theorem c2_error_isolation_witness :
    policyOutcome (mkEvalContext [] wReq) wErr = .error ("boom") ∧
    ((IsAuthorized ([wPermit] ++ wErr :: [wQuiet]) [] wReq).1 =
       (IsAuthorized ([wPermit] ++ [wQuiet]) [] wReq).1 ∧
     (IsAuthorized ([wPermit] ++ wErr :: [wQuiet]) [] wReq).2.errors =
       errorsOfFrom (mkEvalContext [] wReq) 0 [wPermit] ++
         AuthzError.mk ([wPermit] : List CPolicy).length wErr.position ("boom") ::
           errorsOfFrom (mkEvalContext [] wReq) (([wPermit] : List CPolicy).length + 1) [wQuiet] ∧
     (IsAuthorized ([wPermit] ++ wErr :: [wQuiet]) [] wReq).2.reasons =
       (if anyFired (mkEvalContext [] wReq) .forbid [wPermit] ||
            anyFired (mkEvalContext [] wReq) .forbid [wQuiet] then
          reasonsOfFrom (mkEvalContext [] wReq) .forbid 0 [wPermit] ++
            reasonsOfFrom (mkEvalContext [] wReq) .forbid (([wPermit] : List CPolicy).length + 1) [wQuiet]
        else
          reasonsOfFrom (mkEvalContext [] wReq) .permit 0 [wPermit] ++
            reasonsOfFrom (mkEvalContext [] wReq) .permit (([wPermit] : List CPolicy).length + 1) [wQuiet])) :=
  ⟨rfl, c2_error_isolation [] wReq [wPermit] [wQuiet] wErr ("boom") rfl⟩


end CedarGo
